import Mathlib

/-!
Shallow embedding of `pyutilib/misc/timing.py` (the hierarchical timer core:
`_HierarchicalHelper` and `HierarchicalTimer`).

Modelling conventions:
* Wall-clock readings (Python floats returned by `time.time()`) are modelled as
  rationals.  The impure clock is modelled as a function `clk : ℕ → ℚ` from the
  number of `time.time()` calls made so far to the value returned; every state
  carries the call counter `tick`.
* Python dicts (which preserve insertion order) are association lists; updating
  an existing key keeps its position, inserting a new key appends.
* A Python statement that raises is modelled by an `Option`/error result:
  `none` (or an explicit `StopErr` value) marks the raised exception, and where
  the exception leaves behind a partially mutated object the partially mutated
  state is returned next to the error.
-/

namespace PyTiming

/-- Class `_HierarchicalHelper`: fields `total_time`, `t0`, `n_calls`, `timers`
(the children dict, as an insertion-ordered association list). -/
inductive HH : Type where
  | mk : ℚ → Option ℚ → ℕ → List (String × HH) → HH

def HH.total_time : HH → ℚ
  | .mk a _ _ _ => a

def HH.t0 : HH → Option ℚ
  | .mk _ b _ _ => b

def HH.n_calls : HH → ℕ
  | .mk _ _ c _ => c

def HH.timers : HH → List (String × HH)
  | .mk _ _ _ d => d

/-- Constructor `_HierarchicalHelper.__init__`: `total_time = 0`, `t0 = None`,
`n_calls = 0`, `timers = {}`. -/
def HH.init : HH := .mk 0 none 0 []

/-- Method `_HierarchicalHelper.start_increment`: `self.t0 = time.time()`
(the current clock reading is passed in as `now`). -/
def HH.start_increment (h : HH) (now : ℚ) : HH :=
  .mk h.total_time (some now) h.n_calls h.timers

/-- Method `_HierarchicalHelper.stop_increment`:
`self.total_time += time.time() - self.t0; self.n_calls += 1`.
When `t0` is `None` the subtraction raises a `TypeError`, modelled by `none`.
Note that the code does not clear `t0`. -/
def HH.stop_increment (h : HH) (now : ℚ) : Option HH :=
  match h.t0 with
  | none => none
  | some t => some (.mk (h.total_time + (now - t)) h.t0 (h.n_calls + 1) h.timers)

/-- Dict read `d[k]` (first binding of the key, as in a Python dict). -/
def lookupT : List (String × HH) → String → Option HH
  | [], _ => none
  | (k, v) :: rest, n => if k = n then some v else lookupT rest n

/-- Dict write `d[k] = v`: replaces in place when the key exists, appends
otherwise (Python dicts preserve insertion order). -/
def setT : List (String × HH) → String → HH → List (String × HH)
  | [], n, v => [(n, v)]
  | (k, w) :: rest, n, v =>
    if k = n then (n, v) :: rest else (k, w) :: setT rest n v

/-- The errors the hierarchical-timer methods can raise. -/
inductive StopErr : Type where
  /-- Error `IndexError`: `pop` from an empty stack. -/
  | emptyPop
  /-- Error `AssertionError`: `assert identifier == self.stack.pop()` failed. -/
  | mismatch
  /-- Error `KeyError`: walking `tmp.timers[i]` for a stack entry not in the tree. -/
  | keyError
  /-- Error `RuntimeError('Could not find timer ...')` from `_get_timer` with
  `should_exist=True`. -/
  | notFound
  /-- Error `TypeError` from `time.time() - None` in `stop_increment`. -/
  | typeError
deriving DecidableEq

/-- The walk of `_get_timer`: follow `path` through the `timers` dicts
(`tmp = tmp.timers[i]`, raising `KeyError` when absent), then apply `f` to the
node reached, rebuilding the spine with the updated node. -/
def HH.modifyAtE (h : HH) : List String → (HH → Except StopErr HH) → Except StopErr HH
  | [], f => f h
  | i :: rest, f =>
    match lookupT h.timers i with
    | none => .error .keyError
    | some c =>
      match c.modifyAtE rest f with
      | .error e => .error e
      | .ok c' => .ok (.mk h.total_time h.t0 h.n_calls (setT h.timers i c'))

/-- Read-only walk to the accumulator at `path` (root = `[]`). -/
def HH.atPath (h : HH) : List String → Option HH
  | [] => some h
  | i :: rest =>
    match lookupT h.timers i with
    | none => none
    | some c => c.atPath rest

/-- Class `HierarchicalTimer`: the `stack` of currently open names, the root of the
accumulator tree (only its `timers` dict is meaningful: it models
`self.timers` of the `HierarchicalTimer` object, and lets `_get_timer`'s walk
start uniformly at `tmp = self`), and the clock-call counter. -/
structure HT where
  stack : List String
  root : HH
  tick : ℕ

/-- Constructor `HierarchicalTimer.__init__`: empty stack, empty dict. -/
def HT.init : HT := ⟨[], HH.init, 0⟩

/-- Method `HierarchicalTimer.start_increment(identifier)`:
`timer = self._get_timer(identifier)` (walk `self.stack`, then fetch or create
`timers[identifier]`), `timer.start_increment()`, `self.stack.append(identifier)`.
`none` models the (unreachable in normal use) `KeyError` from the walk. -/
def HT.start_increment (clk : ℕ → ℚ) (s : HT) (identifier : String) : Option HT :=
  match s.root.modifyAtE s.stack (fun node =>
      let c := (lookupT node.timers identifier).getD HH.init
      .ok (.mk node.total_time node.t0 node.n_calls
        (setT node.timers identifier (c.start_increment (clk s.tick))))) with
  | .error _ => none
  | .ok r => some ⟨s.stack ++ [identifier], r, s.tick + 1⟩

/-- Method `HierarchicalTimer.stop_increment(identifier)`:
`assert identifier == self.stack.pop()` — the pop happens first, so the stack
is shortened even when the assertion then fails; then
`timer = self._get_timer(identifier, should_exist=True)` over the already
popped stack, then `timer.stop_increment()`.  The result pairs the raised
error (if any) with the state the object is left in. -/
def HT.stop_increment (clk : ℕ → ℚ) (s : HT) (identifier : String) :
    Option StopErr × HT :=
  match s.stack.getLast? with
  | none => (some .emptyPop, s)
  | some top =>
    let s1 : HT := ⟨s.stack.dropLast, s.root, s.tick⟩
    if identifier = top then
      match s.root.modifyAtE s1.stack (fun node =>
          match lookupT node.timers identifier with
          | none => .error .notFound
          | some tm =>
            match tm.stop_increment (clk s.tick) with
            | none => .error .typeError
            | some tm' =>
              .ok (.mk node.total_time node.t0 node.n_calls
                (setT node.timers identifier tm'))) with
      | .ok r => (none, ⟨s1.stack, r, s.tick + 1⟩)
      | .error .typeError => (some .typeError, ⟨s1.stack, s.root, s.tick + 1⟩)
      | .error e => (some e, s1)
    else (some .mismatch, s1)

/-- Method `HierarchicalTimer.reset`: `self.stack = list(); self.timers = dict()`. -/
def HT.reset (s : HT) : HT := ⟨[], HH.init, s.tick⟩

/-! ### The report formatter

`__str__` and `_HierarchicalHelper.print` build each row with Python format
specifiers: name left-aligned to width 30, `total_time` and the average in
scientific notation with 2 decimals right-aligned to width 15, `n_calls` as a
right-aligned width-15 integer, the percentage with 1 decimal right-aligned to
width 15 followed by a literal percent sign.  The formatters below reproduce
that text for a rational value, working on its numerator/denominator with
integer arithmetic.  (Rounding is round-half-up; Python rounds the underlying
float half-to-even, which agrees on every value without a decimal tie.) -/

/-- Number of base-10 digits of `n` (first argument is fuel, `n` itself is
enough fuel for any `n ≥ 1`). -/
def dcount : ℕ → ℕ → ℕ
  | 0, _ => 0
  | f + 1, n => if n < 10 then 1 else dcount f (n / 10) + 1

/-- Base-10 digit count of a positive natural. -/
def digits10 (n : ℕ) : ℕ := dcount n n

/-- Floor of the base-10 logarithm of `n / d` for positive naturals `n, d`, by digit counts plus one
cross-multiplication test. -/
def flog10 (n d : ℕ) : ℤ :=
  let k : ℤ := (digits10 n : ℤ) - (digits10 d : ℤ)
  if 0 ≤ k then (if 10 ^ k.toNat * d ≤ n then k else k - 1)
  else (if d ≤ 10 ^ (-k).toNat * n then k else k - 1)

/-- Mantissa (times 100, rounded) and exponent of `n / d > 0` in scientific
notation with two decimals: returns `(m, e)` with `100 ≤ m ≤ 999` and
`n / d ≈ (m / 100) * 10 ^ e`. -/
def sciDigits (n d : ℕ) : ℕ × ℤ :=
  let e := flog10 n d
  let num := if 0 ≤ e then 100 * n else 100 * n * 10 ^ (-e).toNat
  let den := if 0 ≤ e then d * 10 ^ e.toNat else d
  let r := (2 * num + den) / (2 * den)
  if 1000 ≤ r then (100, e + 1) else (r, e)

/-- At least two digits. -/
def twoDig (n : ℕ) : String := if n < 10 then "0" ++ toString n else toString n

/-- The text of the `.2e` format specifier: scientific notation with a
two-decimal mantissa and a signed two-digit exponent. -/
def sciCore (q : ℚ) : String :=
  if q = 0 then "0.00e+00"
  else
    let sgn := if q < 0 then "-" else ""
    let p := sciDigits q.num.natAbs q.den
    sgn ++ toString (p.1 / 100) ++ "." ++ twoDig (p.1 % 100) ++ "e" ++
      (if p.2 < 0 then "-" else "+") ++ twoDig p.2.natAbs

/-- The text of the `.1f` format specifier: fixed-point with one decimal. -/
def fix1core (q : ℚ) : String :=
  let sgn := if q < 0 then "-" else ""
  let t := (2 * (10 * q.num.natAbs) + q.den) / (2 * q.den)
  sgn ++ toString (t / 10) ++ "." ++ toString (t % 10)

/-- Right-align in a field of `w` spaces. -/
def padL (w : ℕ) (s : String) : String :=
  String.mk (List.replicate (w - s.length) ' ') ++ s

/-- Left-align in a field of `w` spaces. -/
def padR (w : ℕ) (s : String) : String :=
  s ++ String.mk (List.replicate (w - s.length) ' ')

/-- Format spec: name, left-aligned, width 30. -/
def fName (s : String) : String := padR 30 s

/-- Format spec: scientific, 2 decimals, right-aligned, width 15. -/
def fSci (q : ℚ) : String := padL 15 (sciCore q)

/-- Format spec: integer, right-aligned, width 15. -/
def fInt (n : ℕ) : String := padL 15 (toString n)

/-- Format spec: fixed-point, 1 decimal, right-aligned, width 15. -/
def fPct (q : ℚ) : String := padL 15 (fix1core q)

/-- The literal text `N/A` right-aligned to width 15. -/
def fNA : String := padL 15 "N/A"

mutual
/-- Method `_HierarchicalHelper.print(indent)`: when the node has children, one row
per child (name, total, calls, average, percent-of-this-node) followed by the
child's own subtree one indent level deeper, then the synthetic `other` row;
no children means no rows.  `none` models the `ZeroDivisionError` raised by
`total_time/n_calls` when `n_calls == 0` and by the percentage when this
node's `total_time == 0`. -/
def HH.printR : HH → String → Option String
  | .mk tt _ _ ts, indent =>
    if ts.length > 0 then
      match printKids ts tt tt indent with
      | none => none
      | some (s, other_time) =>
        if tt = 0 then none
        else
          some (s ++ indent ++ fName "other" ++ fSci other_time ++ fNA ++ fNA ++
            fPct (other_time / tt * 100) ++ "%\n")
    else some ""

/-- The `for name, timer in self.timers.items()` loop of
`_HierarchicalHelper.print`: `pt` is the parent's `total_time`, `ot` the
running `other_time`.  Mirrors the evaluation order of the row: the
`total_time/n_calls` division raises first, then the percentage division,
then the recursive `timer.print`. -/
def printKids : List (String × HH) → ℚ → ℚ → String → Option (String × ℚ)
  | [], _, ot, _ => some ("", ot)
  | (name, tm) :: rest, pt, ot, indent =>
    if tm.n_calls = 0 then none
    else if pt = 0 then none
    else
      match tm.printR (indent ++ "    ") with
      | none => none
      | some sub =>
        match printKids rest pt (ot - tm.total_time) indent with
        | none => none
        | some (srest, ot') =>
          some (indent ++ fName name ++ fSci tm.total_time ++ fInt tm.n_calls ++
            fSci (tm.total_time / (tm.n_calls : ℚ)) ++
            fPct (tm.total_time / pt * 100) ++ "%\n" ++ sub ++ srest, ot')
end

/-- The `for name, timer in self.timers.items()` loop of
`HierarchicalTimer.__str__`: a top-level row has name, total, calls and
average but no percentage column; `none` models the `ZeroDivisionError` from
`total_time/n_calls` when a top-level region has `n_calls == 0`. -/
def strKids : List (String × HH) → Option String
  | [] => some ""
  | (name, tm) :: rest =>
    if tm.n_calls = 0 then none
    else
      match tm.printR "    " with
      | none => none
      | some sub =>
        match strKids rest with
        | none => none
        | some srest =>
          some (fName name ++ fSci tm.total_time ++ fInt tm.n_calls ++
            fSci (tm.total_time / (tm.n_calls : ℚ)) ++ "\n" ++ sub ++ srest)

/-- Method `HierarchicalTimer.__str__` (the report); `none` models a raised
`ZeroDivisionError`. -/
def HT.str (s : HT) : Option String := strKids s.root.timers

/-- A public call to the timer. -/
inductive Op : Type where
  | start (n : String)
  | stop (n : String)

/-- One public call; `none` when the call raises. -/
def HT.step (clk : ℕ → ℚ) (s : HT) : Op → Option HT
  | .start n => s.start_increment clk n
  | .stop n =>
    match s.stop_increment clk n with
    | (none, s') => some s'
    | (some _, _) => none

/-- Run a sequence of calls; `none` as soon as one raises. -/
def runO (clk : ℕ → ℚ) (s : HT) : List Op → Option HT
  | [] => some s
  | op :: rest =>
    match s.step clk op with
    | none => none
    | some s' => runO clk s' rest

/-! ### Association-list lemmas -/

theorem lookupT_setT (n q : String) (v : HH) :
    ∀ l, lookupT (setT l n v) q = if q = n then some v else lookupT l q := by
  intro l
  induction l with
  | nil =>
    by_cases h : q = n
    · subst h
      simp [setT, lookupT]
    · simp [setT, lookupT, h, Ne.symm h]
  | cons p rest ih =>
    obtain ⟨k, w⟩ := p
    by_cases hk : k = n
    · subst hk
      by_cases hq : q = k
      · subst hq
        simp [setT, lookupT]
      · simp [setT, lookupT, hq, Ne.symm hq]
    · by_cases hq : k = q
      · subst hq
        simp [setT, lookupT, hk]
      · simp [setT, lookupT, hk, hq, ih]

theorem lookupT_mem {l : List (String × HH)} {k : String} {c : HH}
    (h : lookupT l k = some c) : (k, c) ∈ l := by
  induction l with
  | nil => simp [lookupT] at h
  | cons p rest ih =>
    obtain ⟨k0, w⟩ := p
    by_cases hk : k0 = k
    · subst hk
      simp [lookupT] at h
      simp [h]
    · simp [lookupT, hk] at h
      simp [ih h]

theorem mem_setT {l : List (String × HH)} {n : String} {v : HH} {p : String × HH}
    (h : p ∈ setT l n v) : p = (n, v) ∨ p ∈ l := by
  induction l with
  | nil => simpa [setT] using h
  | cons q rest ih =>
    obtain ⟨k, w⟩ := q
    by_cases hk : k = n
    · subst hk
      simp [setT] at h
      rcases h with h | h
      · exact Or.inl h
      · exact Or.inr (List.mem_cons_of_mem _ h)
    · simp [setT, hk] at h
      rcases h with h | h
      · exact Or.inr (by simp [h])
      · rcases ih h with h' | h'
        · exact Or.inl h'
        · exact Or.inr (List.mem_cons_of_mem _ h')

/-! ### An induction principle for the nested tree type -/

theorem HH.ind (P : HH → Prop)
    (step : ∀ a b c ts, (∀ p ∈ ts, P p.2) → P (.mk a b c ts)) : ∀ x, P x
  | .mk a b c ts => step a b c ts (fun p hp => HH.ind P step p.2)
termination_by x => sizeOf x
decreasing_by
  have h1 : sizeOf p < sizeOf ts := List.sizeOf_lt_of_mem hp
  obtain ⟨p1, p2⟩ := p
  simp at h1 ⊢
  omega

/-! ### Growth order and reachability invariant on accumulator trees -/

/-- Growth order `HHle h h'`: every accumulator of `h` is still present in `h'` with
`total_time` and `n_calls` at least as large. -/
inductive HHle : HH → HH → Prop where
  | intro : ∀ h h', h.total_time ≤ h'.total_time → h.n_calls ≤ h'.n_calls →
      (∀ k c, lookupT h.timers k = some c → (lookupT h'.timers k).isSome) →
      (∀ k c c', lookupT h.timers k = some c → lookupT h'.timers k = some c' →
        HHle c c') →
      HHle h h'

theorem HHle.total_le {h h' : HH} (hle : HHle h h') :
    h.total_time ≤ h'.total_time := by
  cases hle with
  | intro _ _ ha _ _ _ => exact ha

theorem HHle.calls_le {h h' : HH} (hle : HHle h h') : h.n_calls ≤ h'.n_calls := by
  cases hle with
  | intro _ _ _ hb _ _ => exact hb

theorem HHle.childLe {h h' : HH} (hle : HHle h h') {k : String} {c : HH}
    (hc : lookupT h.timers k = some c) :
    ∃ c', lookupT h'.timers k = some c' ∧ HHle c c' := by
  cases hle with
  | intro _ _ _ _ hsome hk =>
    obtain ⟨c', hc'⟩ := Option.isSome_iff_exists.mp (hsome k c hc)
    exact ⟨c', hc', hk k c c' hc hc'⟩

theorem HHle.refl : ∀ h, HHle h h := by
  intro h
  induction h using HH.ind with
  | step a b c ts ih =>
    refine HHle.intro _ _ le_rfl le_rfl (fun k cc hcc => by simp [hcc]) ?_
    intro k cc cc' hcc hcc'
    rw [hcc] at hcc'
    cases hcc'
    exact ih _ (lookupT_mem (by simpa [HH.timers] using hcc))

theorem HHle.trans : ∀ h1 h2 h3, HHle h1 h2 → HHle h2 h3 → HHle h1 h3 := by
  intro h1
  induction h1 using HH.ind with
  | step a b c ts ih =>
    intro h2 h3 h12 h23
    refine HHle.intro _ _ (h12.total_le.trans h23.total_le)
      (h12.calls_le.trans h23.calls_le) ?_ ?_
    · intro k cc hcc
      obtain ⟨c2, hc2, _⟩ := h12.childLe hcc
      obtain ⟨c3, hc3, _⟩ := h23.childLe hc2
      simp [hc3]
    · intro k cc cc' hcc hcc'
      obtain ⟨c2, hc2, hle2⟩ := h12.childLe hcc
      obtain ⟨c3, hc3, hle3⟩ := h23.childLe hc2
      rw [hc3] at hcc'
      cases hcc'
      have hmem : (k, cc) ∈ ts := lookupT_mem (by simpa [HH.timers] using hcc)
      exact ih _ hmem _ _ hle2 hle3

/-- Reachability invariant of a tree, with clock bound `b`: every
`total_time` is nonnegative and every pending `t0` is at most `b` (a clock
value already produced, hence at most any later reading). -/
inductive HGood : ℚ → HH → Prop where
  | intro : ∀ b h, 0 ≤ h.total_time → (∀ t, h.t0 = some t → t ≤ b) →
      (∀ k c, lookupT h.timers k = some c → HGood b c) → HGood b h

theorem HGood.total_nonneg {b : ℚ} {h : HH} (hg : HGood b h) : 0 ≤ h.total_time := by
  cases hg with
  | intro _ ha _ _ => exact ha

theorem HGood.t0_le {b : ℚ} {h : HH} (hg : HGood b h) :
    ∀ t, h.t0 = some t → t ≤ b := by
  cases hg with
  | intro _ _ hb _ => exact hb

theorem HGood.childGood {b : ℚ} {h : HH} (hg : HGood b h) {k : String} {c : HH}
    (hc : lookupT h.timers k = some c) : HGood b c := by
  cases hg with
  | intro _ _ _ hk => exact hk k c hc

theorem HGood.mono {b b' : ℚ} (hbb : b ≤ b') : ∀ {h : HH}, HGood b h → HGood b' h := by
  intro h
  induction h using HH.ind with
  | step a t0 c ts ih =>
    intro hg
    refine HGood.intro _ _ hg.total_nonneg (fun t ht => (hg.t0_le t ht).trans hbb) ?_
    intro k cc hcc
    exact ih _ (lookupT_mem (by simpa [HH.timers] using hcc)) (hg.childGood hcc)

theorem HGood_init (b : ℚ) : HGood b HH.init := by
  refine HGood.intro _ _ ?_ ?_ ?_ <;> simp [HH.init, HH.total_time, HH.t0, HH.timers, lookupT]

@[simp] theorem HH.total_time_mk (a : ℚ) (b : Option ℚ) (c : ℕ) (d : List (String × HH)) :
    (HH.mk a b c d).total_time = a := rfl

@[simp] theorem HH.t0_mk (a : ℚ) (b : Option ℚ) (c : ℕ) (d : List (String × HH)) :
    (HH.mk a b c d).t0 = b := rfl

@[simp] theorem HH.n_calls_mk (a : ℚ) (b : Option ℚ) (c : ℕ) (d : List (String × HH)) :
    (HH.mk a b c d).n_calls = c := rfl

@[simp] theorem HH.timers_mk (a : ℚ) (b : Option ℚ) (c : ℕ) (d : List (String × HH)) :
    (HH.mk a b c d).timers = d := rfl

@[simp] theorem HH.total_time_start_increment (h : HH) (t : ℚ) :
    (h.start_increment t).total_time = h.total_time := rfl

@[simp] theorem HH.t0_start_increment (h : HH) (t : ℚ) :
    (h.start_increment t).t0 = some t := rfl

@[simp] theorem HH.n_calls_start_increment (h : HH) (t : ℚ) :
    (h.start_increment t).n_calls = h.n_calls := rfl

@[simp] theorem HH.timers_start_increment (h : HH) (t : ℚ) :
    (h.start_increment t).timers = h.timers := rfl

theorem HHle_start_increment (h : HH) (t : ℚ) : HHle h (h.start_increment t) := by
  refine HHle.intro _ _ (by simp) (by simp) ?_ ?_
  · intro k c hc
    simp [hc]
  · intro k c c' hc hc'
    simp [hc] at hc'
    subst hc'
    exact HHle.refl c

theorem HGood_start_increment {b t : ℚ} {h : HH} (hg : HGood b h) (ht : t ≤ b) :
    HGood b (h.start_increment t) := by
  refine HGood.intro _ _ (by simpa using hg.total_nonneg) ?_ ?_
  · intro u hu
    simp at hu
    subst hu
    exact ht
  · intro k c hc
    simp at hc
    exact hg.childGood hc

/-- The result of a successful `stop_increment` on an accumulator. -/
theorem HH.stop_increment_some {h h' : HH} {now : ℚ}
    (hs : h.stop_increment now = some h') :
    ∃ t, h.t0 = some t ∧
      h' = .mk (h.total_time + (now - t)) (some t) (h.n_calls + 1) h.timers := by
  unfold HH.stop_increment at hs
  cases ht : h.t0 with
  | none => rw [ht] at hs; cases hs
  | some t =>
    rw [ht] at hs
    cases hs
    exact ⟨t, rfl, rfl⟩

theorem HHle_stop_increment {h h' : HH} {now : ℚ} (hg : HGood now h)
    (hs : h.stop_increment now = some h') : HHle h h' := by
  obtain ⟨t, ht, rfl⟩ := HH.stop_increment_some hs
  have h0 : 0 ≤ now - t := sub_nonneg.mpr (hg.t0_le t ht)
  refine HHle.intro _ _ ?_ (by simp) ?_ ?_
  · simp
    linarith
  · intro k c hc
    simp [hc]
  · intro k c c' hc hc'
    simp [hc] at hc'
    subst hc'
    exact HHle.refl c

theorem HGood_stop_increment {now : ℚ} {h h' : HH} (hg : HGood now h)
    (hs : h.stop_increment now = some h') : HGood now h' := by
  obtain ⟨t, ht, rfl⟩ := HH.stop_increment_some hs
  have h0 : 0 ≤ now - t := sub_nonneg.mpr (hg.t0_le t ht)
  refine HGood.intro _ _ ?_ ?_ ?_
  · simp
    have := hg.total_nonneg
    linarith
  · intro u hu
    simp at hu
    subst hu
    exact hg.t0_le t ht
  · intro k c hc
    simp at hc
    exact hg.childGood hc

/-- A successful `_get_timer` walk followed by a node update that grows the
node and keeps it good leaves the whole tree grown and good. -/
theorem modifyAtE_pres {b : ℚ} {f : HH → Except StopErr HH}
    (hf : ∀ node node', HGood b node → f node = .ok node' →
      HHle node node' ∧ HGood b node') :
    ∀ path h r, HH.modifyAtE h path f = .ok r → HGood b h → HHle h r ∧ HGood b r := by
  intro path
  induction path with
  | nil =>
    intro h r hm hg
    exact hf h r hg hm
  | cons i rest ih =>
    intro h r hm hg
    rw [HH.modifyAtE] at hm
    split at hm
    · cases hm
    · rename_i c hc
      split at hm
      · cases hm
      · rename_i c' hmc
        cases hm
        obtain ⟨hle, hgc'⟩ := ih c c' hmc (hg.childGood hc)
        constructor
        · refine HHle.intro _ _ (by simp) (by simp) ?_ ?_
          · intro k cc hcc
            simp only [HH.timers_mk, lookupT_setT]
            by_cases hk : k = i <;> simp [hk, hcc]
          · intro k cc cc' hcc hcc'
            simp only [HH.timers_mk, lookupT_setT] at hcc'
            by_cases hk : k = i
            · subst hk
              rw [hc] at hcc
              cases hcc
              rw [if_pos rfl] at hcc'
              cases hcc'
              exact hle
            · rw [if_neg hk] at hcc'
              rw [hcc] at hcc'
              cases hcc'
              exact HHle.refl cc
        · refine HGood.intro _ _ (by simpa using hg.total_nonneg) ?_ ?_
          · intro t ht
            simp at ht
            exact hg.t0_le t ht
          · intro k cc hcc
            simp only [HH.timers_mk, lookupT_setT] at hcc
            by_cases hk : k = i
            · rw [if_pos hk] at hcc
              cases hcc
              exact hgc'
            · rw [if_neg hk] at hcc
              exact hg.childGood hcc

/-- Timer `start_increment` grows the tree and preserves the invariant (for a
monotone clock). -/
theorem start_increment_pres {clk : ℕ → ℚ} (hm : Monotone clk) {s s' : HT}
    {n : String} (hs : s.start_increment clk n = some s')
    (hg : HGood (clk s.tick) s.root) :
    HGood (clk s'.tick) s'.root ∧ HHle s.root s'.root ∧ s.tick ≤ s'.tick := by
  unfold HT.start_increment at hs
  cases he : s.root.modifyAtE s.stack (fun node =>
      let c := (lookupT node.timers n).getD HH.init
      .ok (.mk node.total_time node.t0 node.n_calls
        (setT node.timers n (c.start_increment (clk s.tick))))) with
  | error e => rw [he] at hs; cases hs
  | ok r =>
    rw [he] at hs
    cases hs
    have hb : clk s.tick ≤ clk (s.tick + 1) := hm (Nat.le_succ _)
    have hg' : HGood (clk (s.tick + 1)) s.root := HGood.mono hb hg
    have hpres := modifyAtE_pres (b := clk (s.tick + 1)) ?_ s.stack s.root r he hg'
    · exact ⟨hpres.2, hpres.1, Nat.le_succ _⟩
    · intro node node' hgn hfn
      simp only [Except.ok.injEq] at hfn
      subst hfn
      constructor
      · refine HHle.intro _ _ (by simp) (by simp) ?_ ?_
        · intro k cc hcc
          simp only [HH.timers_mk, lookupT_setT]
          by_cases hk : k = n <;> simp [hk, hcc]
        · intro k cc cc' hcc hcc'
          simp only [HH.timers_mk, lookupT_setT] at hcc'
          by_cases hk : k = n
          · subst hk
            rw [if_pos rfl] at hcc'
            cases hcc'
            rw [hcc]
            simp only [Option.getD_some]
            exact HHle_start_increment cc (clk s.tick)
          · rw [if_neg hk] at hcc'
            rw [hcc] at hcc'
            cases hcc'
            exact HHle.refl cc
      · refine HGood.intro _ _ (by simpa using hgn.total_nonneg) ?_ ?_
        · intro t ht
          simp at ht
          exact hgn.t0_le t ht
        · intro k cc hcc
          simp only [HH.timers_mk, lookupT_setT] at hcc
          by_cases hk : k = n
          · rw [if_pos hk] at hcc
            cases hcc
            cases hlk : lookupT node.timers n with
            | none =>
              simp only [Option.getD_none]
              exact HGood_start_increment (HGood_init _) hb
            | some c0 =>
              simp only [Option.getD_some]
              exact HGood_start_increment (hgn.childGood hlk) hb
          · rw [if_neg hk] at hcc
            exact hgn.childGood hcc

/-- A successful `stop_increment` grows the tree and preserves the invariant
(for a monotone clock). -/
theorem stop_increment_pres {clk : ℕ → ℚ} (hm : Monotone clk) {s s' : HT}
    {n : String} (hs : s.stop_increment clk n = (none, s'))
    (hg : HGood (clk s.tick) s.root) :
    HGood (clk s'.tick) s'.root ∧ HHle s.root s'.root ∧ s.tick ≤ s'.tick := by
  unfold HT.stop_increment at hs
  cases hl : s.stack.getLast? with
  | none => rw [hl] at hs; cases hs
  | some top =>
    rw [hl] at hs
    simp only at hs
    by_cases htop : n = top
    · rw [if_pos htop] at hs
      split at hs
      case _ r he =>
        cases hs
        have hpres := modifyAtE_pres (b := clk s.tick) ?_ s.stack.dropLast s.root r he hg
        · have hb : clk s.tick ≤ clk (s.tick + 1) := hm (Nat.le_succ _)
          exact ⟨HGood.mono hb hpres.2, hpres.1, Nat.le_succ _⟩
        · intro node node' hgn hfn
          split at hfn
          · cases hfn
          · rename_i tm hlk
            split at hfn
            · cases hfn
            · rename_i tm' hstop
              simp only [Except.ok.injEq] at hfn
              subst hfn
              have hgtm : HGood (clk s.tick) tm := hgn.childGood hlk
              constructor
              · refine HHle.intro _ _ (by simp) (by simp) ?_ ?_
                · intro k cc hcc
                  simp only [HH.timers_mk, lookupT_setT]
                  by_cases hk : k = n <;> simp [hk, hcc]
                · intro k cc cc' hcc hcc'
                  simp only [HH.timers_mk, lookupT_setT] at hcc'
                  by_cases hk : k = n
                  · subst hk
                    rw [hlk] at hcc
                    cases hcc
                    rw [if_pos rfl] at hcc'
                    cases hcc'
                    exact HHle_stop_increment hgtm hstop
                  · rw [if_neg hk] at hcc'
                    rw [hcc] at hcc'
                    cases hcc'
                    exact HHle.refl cc
              · refine HGood.intro _ _ (by simpa using hgn.total_nonneg) ?_ ?_
                · intro t ht
                  simp at ht
                  exact hgn.t0_le t ht
                · intro k cc hcc
                  simp only [HH.timers_mk, lookupT_setT] at hcc
                  by_cases hk : k = n
                  · rw [if_pos hk] at hcc
                    cases hcc
                    exact HGood_stop_increment hgtm hstop
                  · rw [if_neg hk] at hcc
                    exact hgn.childGood hcc
      case _ => cases hs
      case _ => cases hs
    · rw [if_neg htop] at hs
      cases hs

/-- One successful public call grows the tree and preserves the invariant. -/
theorem step_pres {clk : ℕ → ℚ} (hm : Monotone clk) {s s' : HT} {op : Op}
    (hs : s.step clk op = some s') (hg : HGood (clk s.tick) s.root) :
    HGood (clk s'.tick) s'.root ∧ HHle s.root s'.root ∧ s.tick ≤ s'.tick := by
  cases op with
  | start n => exact start_increment_pres hm hs hg
  | stop n =>
    rw [HT.step] at hs
    cases hstop : s.stop_increment clk n with
    | mk err s1 =>
      rw [hstop] at hs
      cases err with
      | none =>
        simp only [Option.some.injEq] at hs
        subst hs
        exact stop_increment_pres hm hstop hg
      | some e => cases hs

/-- A successful run grows the tree and preserves the invariant. -/
theorem run_pres {clk : ℕ → ℚ} (hm : Monotone clk) :
    ∀ ops (s s' : HT), runO clk s ops = some s' → HGood (clk s.tick) s.root →
      HGood (clk s'.tick) s'.root ∧ HHle s.root s'.root ∧ s.tick ≤ s'.tick := by
  intro ops
  induction ops with
  | nil =>
    intro s s' hr hg
    rw [runO] at hr
    cases hr
    exact ⟨hg, HHle.refl _, le_rfl⟩
  | cons op rest ih =>
    intro s s' hr hg
    rw [runO] at hr
    cases hstep : s.step clk op with
    | none => rw [hstep] at hr; cases hr
    | some s1 =>
      rw [hstep] at hr
      obtain ⟨hg1, hle1, ht1⟩ := step_pres hm hstep hg
      obtain ⟨hg', hle', ht'⟩ := ih s1 s' hr hg1
      exact ⟨hg', HHle.trans _ _ _ hle1 hle', ht1.trans ht'⟩

/-- Growth transfers along `atPath`. -/
theorem HHle.atPath_le {h h' : HH} (hle : HHle h h') :
    ∀ p x, h.atPath p = some x → ∃ x', h'.atPath p = some x' ∧ HHle x x' := by
  intro p
  induction p generalizing h h' with
  | nil =>
    intro x hx
    rw [HH.atPath] at hx
    cases hx
    exact ⟨h', rfl, hle⟩
  | cons i rest ih =>
    intro x hx
    rw [HH.atPath] at hx
    cases hc : lookupT h.timers i with
    | none => rw [hc] at hx; cases hx
    | some c =>
      rw [hc] at hx
      obtain ⟨c', hc', hlec⟩ := hle.childLe hc
      obtain ⟨x', hx', hlex⟩ := ih hlec x hx
      refine ⟨x', ?_, hlex⟩
      rw [HH.atPath, hc']
      exact hx'

/-- Goodness transfers along `atPath`. -/
theorem HGood.atPath_good {b : ℚ} {h : HH} (hg : HGood b h) :
    ∀ p x, h.atPath p = some x → HGood b x := by
  intro p
  induction p generalizing h with
  | nil =>
    intro x hx
    rw [HH.atPath] at hx
    cases hx
    exact hg
  | cons i rest ih =>
    intro x hx
    rw [HH.atPath] at hx
    cases hc : lookupT h.timers i with
    | none => rw [hc] at hx; cases hx
    | some c =>
      rw [hc] at hx
      exact ih (hg.childGood hc) x hx

/-! ### Instrumented runs: the accumulator-level start/stop events

To state which `_HierarchicalHelper` receives `start_increment`/
`stop_increment` calls, the instrumented step returns, next to the new state,
the list of events it caused: `(path, true)` for a helper-level start at
`path`, `(path, false)` for a helper-level stop. -/

/-- One public call together with the helper-level events it performs:
`start_increment(n)` invokes the helper start on the accumulator at
`stack ++ [n]`; a successful `stop_increment(n)` invokes the helper stop on
the accumulator at the un-popped `stack` (whose last entry is `n`). -/
def HT.stepTr (clk : ℕ → ℚ) (s : HT) : Op → Option (HT × List (List String × Bool))
  | .start n =>
    match s.start_increment clk n with
    | none => none
    | some s' => some (s', [(s.stack ++ [n], true)])
  | .stop n =>
    match s.stop_increment clk n with
    | (none, s') => some (s', [(s.stack, false)])
    | (some _, _) => none

/-- Run a sequence of calls, collecting the helper-level events. -/
def runTr (clk : ℕ → ℚ) (s : HT) : List Op → Option (HT × List (List String × Bool))
  | [] => some (s, [])
  | op :: rest =>
    match s.stepTr clk op with
    | none => none
    | some (s', evs) =>
      match runTr clk s' rest with
      | none => none
      | some (s'', tr) => some (s'', evs ++ tr)

/-- The events delivered to the accumulator at path `p`, in order
(`true` = helper start, `false` = helper stop). -/
def filterTr (p : List String) : List (List String × Bool) → List Bool
  | [] => []
  | e :: rest => if e.1 = p then e.2 :: filterTr p rest else filterTr p rest

/-- Advance the idle/running state of one accumulator by one event:
a start is valid only while idle, a stop only while running; `none` marks a
violated precondition. -/
def altStep : Option Bool → Bool → Option Bool
  | none, _ => none
  | some o, e => if o = e then none else some e

/-- Fold an event list from the idle state. -/
def altOpen (l : List Bool) : Option Bool := l.foldl altStep (some false)

/-- The event list strictly alternates from the given state: every start
arrives while idle and every stop while running. -/
def validEvents : Bool → List Bool → Bool
  | _, [] => true
  | cur, e :: rest => if cur = e then false else validEvents e rest

/-- Whether `p` is a prefix of `l`. -/
def preB : List String → List String → Bool
  | [], _ => true
  | _ :: _, [] => false
  | a :: p, b :: l => if a = b then preB p l else false

/-- The accumulator at path `p` is open: `p` is a nonempty prefix of the
stack. -/
def openB (p st : List String) : Bool := !p.isEmpty && preB p st

theorem filterTr_append (p : List String) :
    ∀ l1 l2, filterTr p (l1 ++ l2) = filterTr p l1 ++ filterTr p l2 := by
  intro l1 l2
  induction l1 with
  | nil => simp [filterTr]
  | cons e rest ih =>
    by_cases he : e.1 = p <;> simp [filterTr, he, ih]

theorem altOpen_append (l : List Bool) (e : Bool) :
    altOpen (l ++ [e]) = altStep (altOpen l) e := by
  simp [altOpen, List.foldl_append]

theorem validEvents_iff_isSome :
    ∀ l cur, validEvents cur l = (List.foldl altStep (some cur) l).isSome := by
  intro l
  induction l with
  | nil => simp [validEvents]
  | cons e rest ih =>
    intro cur
    by_cases he : cur = e
    · subst he
      have : ∀ m, List.foldl altStep (none : Option Bool) m = none := by
        intro m
        induction m with
        | nil => rfl
        | cons x xs ihm => simp [List.foldl, altStep, ihm]
      simp [validEvents, List.foldl, altStep, this]
    · simp [validEvents, he, List.foldl, altStep, ih]

theorem preB_refl : ∀ l, preB l l = true := by
  intro l
  induction l with
  | nil => rfl
  | cons a rest ih => simp [preB, ih]

theorem preB_concat_self : ∀ l (x : String), preB (l ++ [x]) l = false := by
  intro l x
  induction l with
  | nil => simp [preB]
  | cons a rest ih => simp [preB, ih]

theorem preB_concat (x : String) :
    ∀ p l, preB p (l ++ [x]) = (preB p l || decide (p = l ++ [x])) := by
  intro p
  induction p with
  | nil =>
    intro l
    simp [preB]
  | cons a p' ih =>
    intro l
    cases l with
    | nil =>
      cases p' with
      | nil => by_cases hax : a = x <;> simp [preB, hax]
      | cons b p'' => simp [preB]
    | cons b l' =>
      by_cases hab : a = b
      · subst hab
        simp [preB, ih l']
      · simp [preB, hab]

/-- The alternation invariant: an accumulator has an unmatched helper-level
start exactly when its path is a nonempty prefix of the stack. -/
def InvP (s : HT) (tr : List (List String × Bool)) : Prop :=
  ∀ p, altOpen (filterTr p tr) = some (openB p s.stack)

theorem start_increment_stack {clk : ℕ → ℚ} {s s' : HT} {n : String}
    (h : s.start_increment clk n = some s') :
    s'.stack = s.stack ++ [n] ∧ s'.tick = s.tick + 1 := by
  unfold HT.start_increment at h
  split at h
  · cases h
  · cases h
    exact ⟨rfl, rfl⟩

theorem stop_increment_none {clk : ℕ → ℚ} {s s' : HT} {n : String}
    (h : s.stop_increment clk n = (none, s')) :
    s.stack.getLast? = some n ∧ s'.stack = s.stack.dropLast := by
  unfold HT.stop_increment at h
  split at h
  · cases h
  · rename_i top hl
    simp only at h
    by_cases htop : n = top
    · rw [if_pos htop] at h
      subst htop
      split at h
      · cases h
        exact ⟨hl, rfl⟩
      · cases h
      · cases h
    · rw [if_neg htop] at h
      cases h

theorem stepTr_inv {clk : ℕ → ℚ} {s s' : HT} {op : Op}
    {evs : List (List String × Bool)} (h : s.stepTr clk op = some (s', evs)) :
    ∀ tr, InvP s tr → InvP s' (tr ++ evs) := by
  intro tr hinv p
  cases op with
  | start n =>
    rw [HT.stepTr] at h
    split at h
    · cases h
    · rename_i s1 hs1
      cases h
      have hst := (start_increment_stack hs1).1
      rw [filterTr_append]
      by_cases hp : p = s.stack ++ [n]
      · subst hp
        simp only [filterTr, eq_self_iff_true, if_true]
        rw [altOpen_append, hinv _, hst]
        have h1 : openB (s.stack ++ [n]) s.stack = false := by
          simp [openB, preB_concat_self]
        have h2 : openB (s.stack ++ [n]) (s.stack ++ [n]) = true := by
          simp [openB, preB_refl]
        rw [h1, h2]
        rfl
      · simp only [filterTr, if_neg (Ne.symm hp), List.append_nil]
        rw [hinv _, hst]
        have : openB p (s.stack ++ [n]) = openB p s.stack := by
          simp only [openB, preB_concat]
          rw [decide_eq_false hp]
          simp
        rw [this]
  | stop n =>
    rw [HT.stepTr] at h
    split at h
    · rename_i s1 hs1
      cases h
      obtain ⟨hl, hst⟩ := stop_increment_none hs1
      have hne : s.stack ≠ [] := by
        intro he
        rw [he] at hl
        cases hl
      have hsplit : s.stack.dropLast ++ [n] = s.stack :=
        List.dropLast_append_getLast? n hl
      rw [filterTr_append]
      by_cases hp : p = s.stack
      · subst hp
        simp only [filterTr, eq_self_iff_true, if_true]
        rw [altOpen_append, hinv _, hst]
        have h1 : openB s.stack s.stack = true := by
          simp [openB, preB_refl, List.isEmpty_iff, hne]
        have h2 : openB s.stack s.stack.dropLast = false := by
          rw [← hsplit]
          simp [openB, preB_concat_self]
        rw [h1, h2]
        rfl
      · simp only [filterTr, if_neg (Ne.symm hp), List.append_nil]
        rw [hinv _, hst]
        have : openB p s.stack.dropLast = openB p s.stack := by
          conv_rhs => rw [← hsplit]
          simp only [openB, preB_concat]
          rw [decide_eq_false (fun hh => hp (hh.trans hsplit))]
          simp
        rw [this]
    · cases h

theorem runTr_inv {clk : ℕ → ℚ} :
    ∀ ops (s : HT) tr (s' : HT) tr', InvP s tr →
      runTr clk s ops = some (s', tr') → InvP s' (tr ++ tr') := by
  intro ops
  induction ops with
  | nil =>
    intro s tr s' tr' hinv hr
    rw [runTr] at hr
    cases hr
    simpa using hinv
  | cons op rest ih =>
    intro s tr s' tr' hinv hr
    rw [runTr] at hr
    cases hstep : s.stepTr clk op with
    | none => rw [hstep] at hr; cases hr
    | some pres =>
      obtain ⟨s1, evs⟩ := pres
      rw [hstep] at hr
      dsimp only at hr
      cases hrest : runTr clk s1 rest with
      | none => rw [hrest] at hr; cases hr
      | some pr2 =>
        obtain ⟨s2, tr2⟩ := pr2
        rw [hrest] at hr
        simp only [Option.some.injEq, Prod.mk.injEq] at hr
        obtain ⟨h3, h4⟩ := hr
        subst h3
        subst h4
        have h1 := stepTr_inv hstep tr hinv
        have h2 := ih s1 (tr ++ evs) _ _ h1 hrest
        simpa [List.append_assoc] using h2

theorem InvP_init : InvP HT.init [] := by
  intro p
  cases p with
  | nil => simp [altOpen, filterTr, List.foldl, openB, HT.init]
  | cons a rest => simp [altOpen, filterTr, List.foldl, openB, HT.init, preB]

/-! ### When does report generation succeed? -/

/-- The divisions of `_HierarchicalHelper.print` are all defined below this
node: every child has completed at least one cycle, and a node with children
has nonzero `total_time`. -/
inductive RepOK : HH → Prop where
  | intro : ∀ h, (h.timers = [] ∨ h.total_time ≠ 0) →
      (∀ p ∈ h.timers, p.2.n_calls ≠ 0) →
      (∀ p ∈ h.timers, RepOK p.2) → RepOK h

theorem RepOK.total {h : HH} (hr : RepOK h) : h.timers = [] ∨ h.total_time ≠ 0 := by
  cases hr with
  | intro _ ha _ _ => exact ha

theorem RepOK.calls {h : HH} (hr : RepOK h) : ∀ p ∈ h.timers, p.2.n_calls ≠ 0 := by
  cases hr with
  | intro _ _ hb _ => exact hb

theorem RepOK.kids {h : HH} (hr : RepOK h) : ∀ p ∈ h.timers, RepOK p.2 := by
  cases hr with
  | intro _ _ _ hc => exact hc

theorem printKids_isSome :
    ∀ (l : List (String × HH)) (pt ot : ℚ) (ind : String), pt ≠ 0 →
      (∀ p ∈ l, p.2.n_calls ≠ 0) →
      (∀ p ∈ l, ∀ ind', (p.2.printR ind').isSome) →
      (printKids l pt ot ind).isSome := by
  intro l
  induction l with
  | nil =>
    intro pt ot ind _ _ _
    rw [printKids]
    rfl
  | cons p rest ih =>
    intro pt ot ind hpt hcalls hpr
    obtain ⟨name, tm⟩ := p
    rw [printKids]
    rw [if_neg (hcalls (name, tm) (List.mem_cons_self _ _))]
    rw [if_neg hpt]
    obtain ⟨sub, hsub⟩ :=
      Option.isSome_iff_exists.mp (hpr (name, tm) (List.mem_cons_self _ _) (ind ++ "    "))
    rw [hsub]
    have hrest := ih pt (ot - tm.total_time) ind hpt
      (fun q hq => hcalls q (List.mem_cons_of_mem _ hq))
      (fun q hq => hpr q (List.mem_cons_of_mem _ hq))
    obtain ⟨⟨srest, ot'⟩, hr2⟩ := Option.isSome_iff_exists.mp hrest
    rw [hr2]
    rfl

theorem printR_isSome : ∀ h : HH, RepOK h → ∀ ind, (h.printR ind).isSome := by
  intro h
  induction h using HH.ind with
  | step a b c ts ih =>
    intro hrep ind
    rw [HH.printR]
    by_cases hts : ts.length > 0
    · rw [if_pos hts]
      have hne : ts ≠ [] := by
        intro he
        rw [he] at hts
        simp at hts
      have ha : a ≠ 0 := by
        rcases hrep.total with h1 | h1
        · exact absurd (by simpa [HH.timers] using h1) hne
        · simpa [HH.total_time] using h1
      have hkids := printKids_isSome ts a a ind ha
        (by simpa [HH.timers] using hrep.calls)
        (fun p hp ind' => ih p hp (hrep.kids p (by simpa [HH.timers] using hp)) ind')
      obtain ⟨⟨srest, ot'⟩, hk⟩ := Option.isSome_iff_exists.mp hkids
      rw [hk]
      dsimp only
      rw [if_neg ha]
      rfl
    · rw [if_neg hts]
      rfl

theorem strKids_isSome :
    ∀ l : List (String × HH), (∀ p ∈ l, p.2.n_calls ≠ 0) → (∀ p ∈ l, RepOK p.2) →
      (strKids l).isSome := by
  intro l
  induction l with
  | nil =>
    intro _ _
    rw [strKids]
    rfl
  | cons p rest ih =>
    intro hcalls hrep
    obtain ⟨name, tm⟩ := p
    rw [strKids]
    rw [if_neg (hcalls (name, tm) (List.mem_cons_self _ _))]
    obtain ⟨sub, hsub⟩ := Option.isSome_iff_exists.mp
      (printR_isSome tm (hrep (name, tm) (List.mem_cons_self _ _)) "    ")
    rw [hsub]
    obtain ⟨srest, hr2⟩ := Option.isSome_iff_exists.mp
      (ih (fun q hq => hcalls q (List.mem_cons_of_mem _ hq))
        (fun q hq => hrep q (List.mem_cons_of_mem _ hq)))
    rw [hr2]
    rfl

/-! ### Concrete clocks for the closed statements -/

/-- The clock whose n-th reading is `n` seconds (monotone). -/
def clkN : ℕ → ℚ := fun n => (n : ℚ)

/-- The clock that always reads `0` (monotone, all intervals are zero). -/
def clk0 : ℕ → ℚ := fun _ => 0

/-! ### The claims -/

/-- C1, counterexample.  The claim says producing the report never raises,
in particular not for a region that was started but not yet stopped.  In fact
after the single call `start("a")` the run has succeeded, but `__str__`
computes `timer.total_time/timer.n_calls` with `n_calls == 0` and raises
`ZeroDivisionError` (the report is `none`). -/
theorem C1_report_fails_on_open_region :
    (runO clkN HT.init [.start "a"]).map HT.str = some none := by
  norm_num [runO, HT.step, HT.start_increment, HT.init, HH.init, HH.modifyAtE,
    lookupT, setT, HH.start_increment, clkN, HT.str, strKids]

/-- C1, amended.  Report generation succeeds exactly when its divisions are
defined: if every top-level accumulator has `n_calls ≠ 0` and, recursively,
every accumulator has children only with `n_calls ≠ 0` and has nonzero
`total_time` whenever it has children, then `__str__` returns a string; a
region started but never stopped (`n_calls == 0`) instead raises
`ZeroDivisionError` (see the counterexample). -/
theorem C1_report_ok_of_completed_cycles (s : HT)
    (h1 : ∀ p ∈ s.root.timers, p.2.n_calls ≠ 0)
    (h2 : ∀ p ∈ s.root.timers, RepOK p.2) :
    ∃ out, HT.str s = some out := by
  have hs := strKids_isSome s.root.timers h1 h2
  exact Option.isSome_iff_exists.mp (by simpa [HT.str] using hs)

/-- Witness for C1: the state after `start("a"); stop("a")` under the clock
`clkN` satisfies the hypotheses, and its report exists. -/
theorem C1_report_ok_witness :
    ∃ out, HT.str ⟨[], .mk 0 none 0 [("a", .mk 1 (some 0) 1 [])], 2⟩ = some out :=
  C1_report_ok_of_completed_cycles _
    (fun p hp => by
      simp at hp
      subst hp
      decide)
    (fun p hp => by
      simp at hp
      subst hp
      exact RepOK.intro _ (Or.inl rfl) (fun q hq => by simp at hq)
        (fun q hq => by simp at hq))

/-- C2, counterexample.  The claim says a zero-total parent with children
renders percentages as 0% without error.  Under the constant clock, after
`start("a"); start("b"); stop("b"); stop("a")` the accumulator `"a"` has
`total_time == 0` and one child, and the report raises `ZeroDivisionError`
(`none`) instead of printing 0%. -/
theorem C2_zero_total_report_fails :
    (runO clk0 HT.init [.start "a", .start "b", .stop "b", .stop "a"]).map
      (fun s => (HT.str s,
        (s.root.atPath ["a"]).map (fun h => (h.total_time, h.timers.length)))) =
    some (none, some (0, 1)) := by
  norm_num [runO, HT.step, HT.start_increment, HT.stop_increment, HT.init, HH.init,
    HH.modifyAtE, lookupT, setT, HH.start_increment, HH.stop_increment, clk0,
    HT.str, strKids, HH.printR, printKids, HH.atPath]

/-- C2, amended.  Computing a child percentage under a parent with
`total_time == 0` raises `ZeroDivisionError`: `print` on any accumulator with
zero total time and at least one child returns `none` (either the first
child's `n_calls` is 0 and the average raises, or the percentage divides by
the zero parent total). -/
theorem C2_print_zero_total_raises (h : HH) (ind : String)
    (h0 : h.total_time = 0) (hne : h.timers ≠ []) : h.printR ind = none := by
  cases h with
  | mk a b c ts =>
    simp at h0
    subst h0
    cases ts with
    | nil => simp at hne
    | cons p rest =>
      obtain ⟨name, tm⟩ := p
      rw [HH.printR, if_pos (by simp)]
      have hk : printKids ((name, tm) :: rest) 0 0 ind = none := by
        rw [printKids]
        by_cases hc : tm.n_calls = 0
        · rw [if_pos hc]
        · rw [if_neg hc, if_pos rfl]
      rw [hk]

/-- Witness for C2: a zero-total accumulator with one child, whose `print`
raises. -/
theorem C2_print_zero_total_witness :
    (HH.mk 0 none 0 [("x", HH.init)]).total_time = 0 ∧
    (HH.mk 0 none 0 [("x", HH.init)]).timers ≠ [] ∧
    (HH.mk 0 none 0 [("x", HH.init)]).printR "" = none :=
  ⟨rfl, by simp, C2_print_zero_total_raises _ "" rfl (by simp)⟩

/-- C3, confirmed.  With a non-empty stack, `stop(name)` with `name` different
from the top entry fails with the mismatched-timer `AssertionError`, whatever
the rest of the tree holds; and a stop that does not raise can only have
happened with `name` equal to the top of the stack. -/
theorem C3_stop_requires_top (clk : ℕ → ℚ) (s : HT) (name : String) :
    (∀ top, s.stack.getLast? = some top → name ≠ top →
      (s.stop_increment clk name).1 = some .mismatch) ∧
    ((s.stop_increment clk name).1 = none → s.stack.getLast? = some name) := by
  constructor
  · intro top hl hne
    unfold HT.stop_increment
    rw [hl]
    dsimp only
    rw [if_neg hne]
  · intro h
    have hpair : s.stop_increment clk name = (none, (s.stop_increment clk name).2) := by
      rw [← h]
    exact (stop_increment_none hpair).1

/-- Witness for C3: on the stack `["a"]`, `stop("b")` raises the mismatch
error. -/
theorem C3_stop_requires_top_witness :
    (HT.stop_increment clkN ⟨["a"], HH.init, 0⟩ "b").1 = some .mismatch :=
  (C3_stop_requires_top clkN ⟨["a"], HH.init, 0⟩ "b").1 "a" (by decide) (by decide)

/-- C4, confirmed.  The sequence
`start("a"); start("b"); start("a"); stop("a"); stop("b"); stop("a")`
runs without error and produces two distinct `"a"` accumulators, one at the
root path `["a"]` and one under `"b"` at path `["a", "b", "a"]`, each with
`call_count == 1`, leaving the stack empty. -/
theorem C4_recursive_names_distinct :
    (runO clkN HT.init
      [.start "a", .start "b", .start "a", .stop "a", .stop "b", .stop "a"]).map
      (fun s => ((s.root.atPath ["a"]).map HH.n_calls,
        (s.root.atPath ["a", "b", "a"]).map HH.n_calls, s.stack)) =
    some (some 1, some 1, []) := by
  norm_num [runO, HT.step, HT.start_increment, HT.stop_increment, HT.init, HH.init,
    HH.modifyAtE, lookupT, setT, HH.start_increment, HH.stop_increment, clkN,
    HH.atPath]

/-- C5, counterexample.  The claim says every row, including the top-level
ones, ends with a percentage column and a percent sign.  After
`start("a"); stop("a")` the report consists of one top-level row that has
name, total, calls and average columns but no percentage and no percent sign
anywhere. -/
theorem C5_top_row_lacks_percent :
    (runO clkN HT.init [.start "a", .stop "a"]).map HT.str =
      some (some
        "a                                    1.00e+00              1       1.00e+00\n") ∧
    ('%' ∉
      ("a                                    1.00e+00              1       1.00e+00\n").toList) := by
  constructor
  · norm_num [runO, HT.step, HT.start_increment, HT.stop_increment, HT.init, HH.init,
      HH.modifyAtE, lookupT, setT, HH.start_increment, HH.stop_increment, clkN,
      HT.str, strKids, HH.printR, printKids, fName, fSci, fInt, fNA, sciCore,
      sciDigits, flog10, digits10, dcount, twoDig, padL, padR]
    decide
  · decide

set_option maxRecDepth 8192 in
/-- C5, amended.  Rows produced by `_HierarchicalHelper.print` (depth ≥ 1)
have the layout name(30) total(15, `.2e`) calls(15, `d`) average(15, `.2e`)
percentage(15, `.1f`) `%` newline, indented 4 spaces per level, while the
top-level rows of `__str__` end after the average with no percentage column:
the full report of
`start("solve"); start("setup"); stop("setup"); start("setup"); stop("setup"); stop("solve")`
under the clock `clkN` is byte-for-byte the string below. -/
theorem C5_report_bytes_solve_setup :
    (runO clkN HT.init [.start "solve", .start "setup", .stop "setup",
      .start "setup", .stop "setup", .stop "solve"]).map HT.str =
    some (some
      ("solve                                5.00e+00              1       5.00e+00\n" ++
       "    setup                                2.00e+00              2       1.00e+00           40.0%\n" ++
       "    other                                3.00e+00            N/A            N/A           60.0%\n")) := by
  norm_num [runO, HT.step, HT.start_increment, HT.stop_increment, HT.init, HH.init,
    HH.modifyAtE, lookupT, setT, HH.start_increment, HH.stop_increment, clkN,
    HT.str, strKids, HH.printR, printKids, fName, fSci, fInt, fPct, fNA, sciCore,
    fix1core, sciDigits, flog10, digits10, dcount, twoDig, padL, padR]
  decide

/-- C6, counterexample.  The claim says `stop_increment` clears the pending
start and that a later `stop_increment` on the now-idle accumulator fails.
In fact after `start("a"); stop("a")` (clock `clkN`) the accumulator `"a"`
has completed its cycle (`n_calls == 1`) yet still holds `t0 = 0`, and a
direct helper-level `stop_increment` at time 5 silently succeeds, bumping
`n_calls` to 2 instead of failing. -/
theorem C6_stop_does_not_clear_t0 :
    (runO clkN HT.init [.start "a", .stop "a"]).map
      (fun s => (s.root.atPath ["a"]).map
        (fun h => (h.t0, h.n_calls, (h.stop_increment 5).map HH.n_calls))) =
    some (some (some 0, 1, some 2)) := by
  norm_num [runO, HT.step, HT.start_increment, HT.stop_increment, HT.init, HH.init,
    HH.modifyAtE, lookupT, setT, HH.start_increment, HH.stop_increment, clkN,
    HH.atPath]

/-- C6, amended.  `stop_increment` fails (with the `TypeError` from
`time.time() - None`) exactly when no start was ever recorded (`t0` is
`None`); when `t0` holds a timestamp it adds `now - t0` to `total_time` and
increments `n_calls` by one, but leaves `t0` set instead of clearing it — so
after a completed cycle the accumulator is idle yet a further
`stop_increment` silently succeeds against the stale timestamp. -/
theorem C6_stop_increment_spec (h : HH) (now : ℚ) :
    (h.stop_increment now = none ↔ h.t0 = none) ∧
    (∀ t, h.t0 = some t →
      h.stop_increment now =
        some (.mk (h.total_time + (now - t)) (some t) (h.n_calls + 1) h.timers)) := by
  constructor
  · constructor
    · intro hs
      cases ht : h.t0 with
      | none => rfl
      | some t =>
        rw [HH.stop_increment, ht] at hs
        cases hs
    · intro ht
      rw [HH.stop_increment, ht]
  · intro t ht
    rw [HH.stop_increment, ht]

/-- Witness for C6: stopping a helper whose pending start is at time 1, at
time 3, adds 2 seconds, bumps the call count and keeps `t0 = 1`. -/
theorem C6_stop_increment_spec_witness :
    HH.stop_increment (.mk 0 (some 1) 0 []) 3 =
      some (.mk (0 + (3 - 1)) (some 1) (0 + 1) []) :=
  (C6_stop_increment_spec (.mk 0 (some 1) 0 []) 3).2 1 rfl

/-- C7, confirmed.  `reset` returns the timer to its initial empty state:
the stack is empty, the report is the empty string, and a subsequent
`start(x); stop(x)` runs without error and leaves a fresh accumulator for `x`
with `call_count == 1`, whatever the timer held before the reset. -/
theorem C7_reset_returns_to_empty (clk : ℕ → ℚ) (s : HT) (x : String) :
    (s.reset).stack = [] ∧ HT.str s.reset = some "" ∧
    ∃ s', runO clk s.reset [.start x, .stop x] = some s' ∧
      (s'.root.atPath [x]).map HH.n_calls = some 1 := by
  refine ⟨rfl, rfl, ?_⟩
  simp [runO, HT.step, HT.start_increment, HT.stop_increment, HT.reset, HH.init,
    HH.modifyAtE, lookupT, setT, HH.start_increment, HH.stop_increment, HH.atPath]

/-- C8, confirmed.  For a monotone clock, along any successful run every
accumulator that exists has nonnegative `total_time`, survives any further
successful calls, and its `total_time` and `n_calls` never decrease
(`n_calls`, a natural number, is nonnegative by type). -/
theorem C8_totals_monotone (clk : ℕ → ℚ) (hm : Monotone clk) (ops ops' : List Op)
    (s s' : HT) (h1 : runO clk HT.init ops = some s) (h2 : runO clk s ops' = some s') :
    ∀ p hh, s.root.atPath p = some hh →
      0 ≤ hh.total_time ∧ (s'.root.atPath p).isSome ∧
      ∀ hh', s'.root.atPath p = some hh' →
        hh.total_time ≤ hh'.total_time ∧ hh.n_calls ≤ hh'.n_calls := by
  have hg0 : HGood (clk HT.init.tick) HT.init.root := HGood_init _
  obtain ⟨hgs, -, -⟩ := run_pres hm ops HT.init s h1 hg0
  obtain ⟨-, hle, -⟩ := run_pres hm ops' s s' h2 hgs
  intro p hh hp
  obtain ⟨hh', hp', hlee⟩ := hle.atPath_le p hh hp
  refine ⟨(hgs.atPath_good p hh hp).total_nonneg, by simp [hp'], ?_⟩
  intro hh'' hp''
  rw [hp'] at hp''
  cases hp''
  exact ⟨hlee.total_le, hlee.calls_le⟩

/-- Witness for C8: under the clock `clkN`, after `start("a")` the
accumulator `"a"` exists with total 0; after the further `stop("a")` it still
exists with total 1 ≥ 0 and one more completed call. -/
theorem C8_totals_monotone_witness :
    Monotone clkN ∧
    runO clkN HT.init [.start "a"] =
      some ⟨["a"], .mk 0 none 0 [("a", .mk 0 (some 0) 0 [])], 1⟩ ∧
    runO clkN ⟨["a"], .mk 0 none 0 [("a", .mk 0 (some 0) 0 [])], 1⟩ [.stop "a"] =
      some ⟨[], .mk 0 none 0 [("a", .mk 1 (some 0) 1 [])], 2⟩ ∧
    (⟨["a"], .mk 0 none 0 [("a", .mk 0 (some 0) 0 [])], 1⟩ : HT).root.atPath ["a"] =
      some (.mk 0 (some 0) 0 []) ∧
    (⟨[], .mk 0 none 0 [("a", .mk 1 (some 0) 1 [])], 2⟩ : HT).root.atPath ["a"] =
      some (.mk 1 (some 0) 1 []) ∧
    (0 : ℚ) ≤ (HH.mk 0 (some 0) 0 []).total_time ∧
    (HH.mk 0 (some 0) 0 []).total_time ≤ (HH.mk 1 (some 0) 1 []).total_time ∧
    (HH.mk 0 (some 0) 0 []).n_calls ≤ (HH.mk 1 (some 0) 1 []).n_calls := by
  have hmono : Monotone clkN := fun a b hab => by
    simp only [clkN]
    exact_mod_cast hab
  have h1 : runO clkN HT.init [.start "a"] =
      some ⟨["a"], .mk 0 none 0 [("a", .mk 0 (some 0) 0 [])], 1⟩ := by
    norm_num [runO, HT.step, HT.start_increment, HT.init, HH.init, HH.modifyAtE,
      lookupT, setT, HH.start_increment, clkN]
  have h2 : runO clkN ⟨["a"], .mk 0 none 0 [("a", .mk 0 (some 0) 0 [])], 1⟩
      [.stop "a"] = some ⟨[], .mk 0 none 0 [("a", .mk 1 (some 0) 1 [])], 2⟩ := by
    norm_num [runO, HT.step, HT.stop_increment, HH.modifyAtE, lookupT, setT,
      HH.stop_increment, clkN]
  have h3 : (⟨["a"], .mk 0 none 0 [("a", .mk 0 (some 0) 0 [])], 1⟩ : HT).root.atPath
      ["a"] = some (.mk 0 (some 0) 0 []) := by
    norm_num [HH.atPath, lookupT]
  have hmain := C8_totals_monotone clkN hmono [.start "a"] [.stop "a"] _ _ h1 h2
    ["a"] (.mk 0 (some 0) 0 []) h3
  have h4 : (⟨[], .mk 0 none 0 [("a", .mk 1 (some 0) 1 [])], 2⟩ : HT).root.atPath
      ["a"] = some (.mk 1 (some 0) 1 []) := by
    norm_num [HH.atPath, lookupT]
  exact ⟨hmono, h1, h2, h3, h4, hmain.1, (hmain.2.2 _ h4).1, (hmain.2.2 _ h4).2⟩

/-- C9, confirmed.  The mismatch assertion of `stop` runs only after
`self.stack.pop()` has executed: when the top of the stack differs from the
name, the call raises the mismatch error with the stack already one entry
shorter and the accumulator tree untouched (so the popped region's
accumulator still holds its pending `t0`); and `stop` on an empty stack
raises the `IndexError` of popping an empty list, not the mismatch error,
leaving the state unchanged. -/
theorem C9_stop_pops_before_check (clk : ℕ → ℚ) (s : HT) (name : String) :
    (∀ top, s.stack.getLast? = some top → name ≠ top →
      s.stop_increment clk name =
        (some .mismatch, ⟨s.stack.dropLast, s.root, s.tick⟩) ∧
      s.stack.dropLast.length + 1 = s.stack.length) ∧
    (s.stack = [] → s.stop_increment clk name = (some .emptyPop, s)) := by
  constructor
  · intro top hl hne
    constructor
    · unfold HT.stop_increment
      rw [hl]
      dsimp only
      rw [if_neg hne]
    · have hns : s.stack ≠ [] := by
        intro he
        rw [he] at hl
        cases hl
      have hpos : 0 < s.stack.length := List.length_pos.mpr hns
      simp [List.length_dropLast]
      omega
  · intro he
    unfold HT.stop_increment
    rw [he]
    rfl

/-- Witness for C9: on the stack `["a", "b"]`, `stop("a")` raises the
mismatch error with `"b"` already popped and the tree unchanged; on the empty
stack, `stop("a")` raises the empty-pop error. -/
theorem C9_stop_pops_before_check_witness :
    HT.stop_increment clkN ⟨["a", "b"], HH.init, 0⟩ "a" =
      (some .mismatch, ⟨["a"], HH.init, 0⟩) ∧
    HT.stop_increment clkN ⟨[], HH.init, 5⟩ "a" = (some .emptyPop, ⟨[], HH.init, 5⟩) :=
  ⟨((C9_stop_pops_before_check clkN ⟨["a", "b"], HH.init, 0⟩ "a").1 "b"
      (by decide) (by decide)).1,
    (C9_stop_pops_before_check clkN ⟨[], HH.init, 5⟩ "a").2 rfl⟩

/-- C10, confirmed.  In every error-free run, the helper-level events each
accumulator receives strictly alternate — every `start_increment` reaches an
accumulator with no unmatched start, and every `stop_increment` an
accumulator with exactly one (the stack-based path resolution enforces the
helper preconditions: restarting an open name targets a deeper path). -/
theorem C10_strict_alternation (clk : ℕ → ℚ) (ops : List Op) (s : HT)
    (tr : List (List String × Bool)) (h : runTr clk HT.init ops = some (s, tr)) :
    ∀ p, validEvents false (filterTr p tr) = true := by
  intro p
  have hinv := runTr_inv ops HT.init [] s tr InvP_init h
  have h2 : altOpen (filterTr p tr) = some (openB p s.stack) := by
    simpa using hinv p
  rw [validEvents_iff_isSome]
  have h3 : List.foldl altStep (some false) (filterTr p tr) = altOpen (filterTr p tr) :=
    rfl
  rw [h3, h2]
  rfl

/-- Witness for C10: the run `start("a"); stop("a")` delivers to path `["a"]`
the strictly alternating event list start-then-stop. -/
theorem C10_strict_alternation_witness :
    runTr clkN HT.init [.start "a", .stop "a"] =
      some (⟨[], .mk 0 none 0 [("a", .mk 1 (some 0) 1 [])], 2⟩,
        [(["a"], true), (["a"], false)]) ∧
    validEvents false (filterTr ["a"] [(["a"], true), (["a"], false)]) = true := by
  have hrun : runTr clkN HT.init [.start "a", .stop "a"] =
      some (⟨[], .mk 0 none 0 [("a", .mk 1 (some 0) 1 [])], 2⟩,
        [(["a"], true), (["a"], false)]) := by
    norm_num [runTr, HT.stepTr, HT.start_increment, HT.stop_increment, HT.init,
      HH.init, HH.modifyAtE, lookupT, setT, HH.start_increment, HH.stop_increment,
      clkN]
  exact ⟨hrun, C10_strict_alternation clkN [.start "a", .stop "a"] _ _ hrun ["a"]⟩

end PyTiming
